import Mathlib

/-!
Shallow embedding of the size-constrained label-propagation clustering
algorithm of `size_constraint_label_propagation.cpp` (KaDraw), together with
theorems settling the specification claims about it.

The graph is borrowed read-only: we model it as a node count, a node-weight
function and an adjacency function giving, for each node, its list of
outgoing edges as (target, edge weight) pairs.  Cluster ids, votes and
weights are machine unsigned integers in the source; no claim depends on
wrap-around, so they are modelled as `Nat`.  The random bit source
(`random_functions::nextBool`) is modelled as a stream `Nat → Bool` together
with a position counter threaded through the state, consuming one bit exactly
where the C++ short-circuit evaluation calls `nextBool()`.
-/

structure Graph where
  n : Nat
  nodeWeight : Nat → Nat
  adj : Nat → List (Nat × Nat)

/-- Well-formed adjacency: every edge of a node points at a node. -/
abbrev Graph.wf (G : Graph) : Prop :=
  ∀ v, v < G.n → ∀ p ∈ G.adj v, p.1 < G.n

/-- The mutable state of `label_propagation`: the `cluster_id` vector, the
`cluster_sizes` vector, the `hash_map` vote accumulator, and the position in
the random-bit stream. -/
structure LPState where
  cluster_id : Nat → Nat
  cluster_sizes : Nat → Nat
  hash_map : Nat → Nat
  rndPos : Nat

/-- Lines 88-91: `cluster_sizes[node] = G.getNodeWeight(node);
cluster_id[node] = node;` (vectors of length `n`, hence zero outside). -/
def initState (G : Graph) : LPState :=
  { cluster_id := fun v => v
    cluster_sizes := fun v => if v < G.n then G.nodeWeight v else 0
    hash_map := fun _ => 0
    rndPos := 0 }

/-- First edge sweep (lines 102-105):
`hash_map[cluster_id[target]] += G.getEdgeWeight(e)`. -/
def accumVotes (cid : Nat → Nat) (hm : Nat → Nat) : List (Nat × Nat) → (Nat → Nat)
  | [] => hm
  | (t, ew) :: rest => accumVotes cid (Function.update hm (cid t) (hm (cid t) + ew)) rest

/-- The capacity condition of line 117:
`cluster_sizes[cur_block] + G.getNodeWeight(node) <= block_upperbound
 || cur_block == my_block`. -/
def eligible (sizes : Nat → Nat) (w bound my c : Nat) : Bool :=
  decide (sizes c + w ≤ bound) || decide (c = my)

/-- Result of the second edge sweep (lines 108-124). -/
structure ScanResult where
  max_value : Nat
  max_block : Nat
  hash_map : Nat → Nat
  pos : Nat

/-- The acceptance condition of lines 116-118:
`(cur_value > max_value || (cur_value == max_value && nextBool())) && eligible`.
The coin at stream position `pos` is read exactly when `cur_value == max_value`
(the first disjunct short-circuits). -/
def acceptStep (sizes : Nat → Nat) (w bound my : Nat) (rnd : Nat → Bool)
    (cur_value maxv pos cur_block : Nat) : Bool :=
  (if cur_value > maxv then true
   else if cur_value = maxv then rnd pos else false) &&
    eligible sizes w bound my cur_block

/-- The next position in the random-bit stream: one bit is consumed exactly
when the C++ short-circuit evaluation reaches `nextBool()`, i.e. when
`cur_value == max_value` (when `cur_value > max_value` the `||` short-circuits,
and otherwise the `&&` does). -/
def nextPos (cur_value maxv pos : Nat) : Nat :=
  if cur_value = maxv then pos + 1 else pos

/-- Second edge sweep (lines 112-124): for each edge, read the accumulated
vote of the target's block, accept the block when `acceptStep` holds, then
reset the accumulator entry to zero (`hash_map[cur_block] = 0`). -/
def scanEdges (cid : Nat → Nat) (sizes : Nat → Nat) (w bound my : Nat) (rnd : Nat → Bool) :
    List (Nat × Nat) → Nat → Nat → (Nat → Nat) → Nat → ScanResult
  | [], maxv, maxb, hm, pos => ⟨maxv, maxb, hm, pos⟩
  | (t, _ew) :: rest, maxv, maxb, hm, pos =>
      if acceptStep sizes w bound my rnd (hm (cid t)) maxv pos (cid t) then
        scanEdges cid sizes w bound my rnd rest (hm (cid t)) (cid t)
          (Function.update hm (cid t) 0) (nextPos (hm (cid t)) maxv pos)
      else
        scanEdges cid sizes w bound my rnd rest maxv maxb
          (Function.update hm (cid t) 0) (nextPos (hm (cid t)) maxv pos)

/-- Processing one node of a pass (lines 102-129): accumulate votes,
scan for the best eligible block, then commit
(`cluster_sizes[cluster_id[node]] -= w; cluster_sizes[max_block] += w;
cluster_id[node] = max_block`). -/
def processNode (G : Graph) (bound : Nat) (rnd : Nat → Bool) (s : LPState) (node : Nat) :
    LPState :=
  let w := G.nodeWeight node
  let my := s.cluster_id node
  let hm1 := accumVotes s.cluster_id s.hash_map (G.adj node)
  let r := scanEdges s.cluster_id s.cluster_sizes w bound my rnd (G.adj node) 0 my hm1 s.rndPos
  let cs1 := Function.update s.cluster_sizes my (s.cluster_sizes my - w)
  let cs2 := Function.update cs1 r.max_block (cs1 r.max_block + w)
  { cluster_id := Function.update s.cluster_id node r.max_block
    cluster_sizes := cs2
    hash_map := r.hash_map
    rndPos := r.pos }

/-- One pass over the nodes in permutation order (lines 98-130). -/
def runPass (G : Graph) (bound : Nat) (rnd : Nat → Bool) (perm : List Nat) (s : LPState) :
    LPState :=
  perm.foldl (processNode G bound rnd) s

/-- The `config.label_iterations` sequential passes (lines 96-131). -/
def runPasses (G : Graph) (bound : Nat) (rnd : Nat → Bool) (perm : List Nat) :
    Nat → LPState → LPState
  | 0, s => s
  | k + 1, s => runPasses G bound rnd perm k (runPass G bound rnd perm s)

/-- The remapping loop of `remap_cluster_ids` (lines 152-162): visit nodes in
natural index order; the first time an original cluster id is seen it gets the
next unused dense id; every node's entry is rewritten to the dense id of its
original cluster id. -/
def remapLoop : List Nat → (Nat → Nat) → (Nat → Option Nat) → Nat → ((Nat → Nat) × Nat)
  | [], cid, _, cnt => (cid, cnt)
  | node :: rest, cid, table, cnt =>
      let cur := cid node
      match table cur with
      | some d => remapLoop rest (Function.update cid node d) table cnt
      | none =>
          remapLoop rest (Function.update cid node cnt)
            (Function.update table cur (some cnt)) (cnt + 1)

/-- The core of `remap_cluster_ids`, without the graph write-back: returns the compacted
`cluster_id` array and `cur_no_clusters` (stored into `no_of_coarse_vertices`). -/
def remap_cluster_ids (n : Nat) (cid : Nat → Nat) : (Nat → Nat) × Nat :=
  remapLoop (List.range n) cid (fun _ => none) 0

/-- The graph's partition labelling and partition count, the only graph state
this unit writes. -/
structure GraphPartition where
  partitionIndex : Nat → Nat
  partition_count : Nat

/-- Lines 165-167: `forall_nodes { G.setPartitionIndex(node, cluster_id[node]) }`. -/
def writePartitionIndices (n : Nat) (cid : Nat → Nat) (f : Nat → Nat) : Nat → Nat :=
  (List.range n).foldl (fun g v => Function.update g v (cid v)) f

/-- Full `remap_cluster_ids` including the `apply_to_graph` branch (lines 164-169):
when the flag is set, write every node's compacted id into the graph's
partition labelling and set the graph's partition count; otherwise leave the
graph untouched. -/
def remap_cluster_ids_graph (n : Nat) (cid : Nat → Nat) (gp : GraphPartition)
    (apply_to_graph : Bool) : (Nat → Nat) × Nat × GraphPartition :=
  let r := remap_cluster_ids n cid
  (r.1, r.2,
    if apply_to_graph then
      { partitionIndex := writePartitionIndices n r.1 gp.partitionIndex
        partition_count := r.2 }
    else gp)

/-- The `label_propagation` routine (lines 76-134): initialise singletons, run the passes,
then remap the cluster ids; returns the compacted assignment and the number of
blocks. -/
def label_propagation (G : Graph) (bound : Nat) (rnd : Nat → Bool) (iters : Nat)
    (perm : List Nat) : (Nat → Nat) × Nat :=
  let s := runPasses G bound rnd perm iters (initState G)
  remap_cluster_ids G.n s.cluster_id

/-- Sum of the tracked cluster sizes over all cluster slots. -/
def sizesSum (G : Graph) (s : LPState) : Nat :=
  ∑ c ∈ Finset.range G.n, s.cluster_sizes c

/-- Sum of all node weights of the graph. -/
def totalWeight (G : Graph) : Nat :=
  ∑ v ∈ Finset.range G.n, G.nodeWeight v

/-- The exact weight currently assigned to cluster `c` by an assignment. -/
def clusterWeight (G : Graph) (cid : Nat → Nat) (c : Nat) : Nat :=
  ∑ v ∈ (Finset.range G.n).filter (fun v => cid v = c), G.nodeWeight v

/-- The size tracker is consistent with the assignment: every node's cluster
id is a valid slot, and every slot's tracked size is exactly the total weight
of the nodes currently assigned to it. -/
def sizesConsistent (G : Graph) (s : LPState) : Prop :=
  (∀ v, v < G.n → s.cluster_id v < G.n) ∧
    (∀ c, s.cluster_sizes c = clusterWeight G s.cluster_id c)

/-- The node indices fed to the per-node commits are valid nodes. -/
abbrev validSteps (G : Graph) (steps : List Nat) : Prop :=
  ∀ v ∈ steps, v < G.n

/-- No outgoing edge of `u` offers an eligible positive vote: each neighbour's
cluster either already is `u`'s current cluster, or its accumulated vote
(over a clean accumulator) is zero, or taking `u` in would exceed the bound. -/
abbrev noEligiblePositiveVote (G : Graph) (bound : Nat) (s : LPState) (u : Nat) : Prop :=
  ∀ p ∈ G.adj u,
    s.cluster_id p.1 = s.cluster_id u ∨
    accumVotes s.cluster_id (fun _ => 0) (G.adj u) (s.cluster_id p.1) = 0 ∨
    ¬ (s.cluster_sizes (s.cluster_id p.1) + G.nodeWeight u ≤ bound)

/-! ### Unfolding lemmas for `processNode` -/

lemma processNode_cluster_id (G : Graph) (bound : Nat) (rnd : Nat → Bool) (s : LPState)
    (node : Nat) :
    (processNode G bound rnd s node).cluster_id =
      Function.update s.cluster_id node
        (scanEdges s.cluster_id s.cluster_sizes (G.nodeWeight node) bound (s.cluster_id node)
          rnd (G.adj node) 0 (s.cluster_id node)
          (accumVotes s.cluster_id s.hash_map (G.adj node)) s.rndPos).max_block := rfl

lemma processNode_cluster_sizes (G : Graph) (bound : Nat) (rnd : Nat → Bool) (s : LPState)
    (node : Nat) :
    (processNode G bound rnd s node).cluster_sizes =
      (fun mb => Function.update
          (Function.update s.cluster_sizes (s.cluster_id node)
            (s.cluster_sizes (s.cluster_id node) - G.nodeWeight node)) mb
          (Function.update s.cluster_sizes (s.cluster_id node)
            (s.cluster_sizes (s.cluster_id node) - G.nodeWeight node) mb + G.nodeWeight node))
        (scanEdges s.cluster_id s.cluster_sizes (G.nodeWeight node) bound (s.cluster_id node)
          rnd (G.adj node) 0 (s.cluster_id node)
          (accumVotes s.cluster_id s.hash_map (G.adj node)) s.rndPos).max_block := rfl

lemma processNode_hash_map (G : Graph) (bound : Nat) (rnd : Nat → Bool) (s : LPState)
    (node : Nat) :
    (processNode G bound rnd s node).hash_map =
      (scanEdges s.cluster_id s.cluster_sizes (G.nodeWeight node) bound (s.cluster_id node)
        rnd (G.adj node) 0 (s.cluster_id node)
        (accumVotes s.cluster_id s.hash_map (G.adj node)) s.rndPos).hash_map := rfl

/-! ### The vote accumulator returns to all-zero after every node (claim C7) -/

lemma accumVotes_not_mem (cid : Nat → Nat) (c : Nat) :
    ∀ (es : List (Nat × Nat)) (hm : Nat → Nat), (∀ p ∈ es, cid p.1 ≠ c) →
      accumVotes cid hm es c = hm c := by
  intro es
  induction es with
  | nil => intro hm _; rfl
  | cons p rest ih =>
      intro hm h
      obtain ⟨t, ew⟩ := p
      have ht : cid t ≠ c := h (t, ew) (List.mem_cons_self _ _)
      rw [accumVotes, ih _ fun q hq => h q (List.mem_cons_of_mem _ hq)]
      exact Function.update_noteq (Ne.symm ht) _ _

lemma scanEdges_hash_not_mem (cid sizes : Nat → Nat) (w bound my : Nat) (rnd : Nat → Bool)
    (c : Nat) :
    ∀ (es : List (Nat × Nat)) (maxv maxb : Nat) (hm : Nat → Nat) (pos : Nat),
      (∀ p ∈ es, cid p.1 ≠ c) →
      (scanEdges cid sizes w bound my rnd es maxv maxb hm pos).hash_map c = hm c := by
  intro es
  induction es with
  | nil => intro maxv maxb hm pos _; rfl
  | cons p rest ih =>
      intro maxv maxb hm pos h
      obtain ⟨t, ew⟩ := p
      have ht : cid t ≠ c := h (t, ew) (List.mem_cons_self _ _)
      have hrest : ∀ q ∈ rest, cid q.1 ≠ c := fun q hq => h q (List.mem_cons_of_mem _ hq)
      rw [scanEdges]
      split
      · rw [ih _ _ _ _ hrest]
        exact Function.update_noteq (Ne.symm ht) _ _
      · rw [ih _ _ _ _ hrest]
        exact Function.update_noteq (Ne.symm ht) _ _

lemma scanEdges_hash_mem (cid sizes : Nat → Nat) (w bound my : Nat) (rnd : Nat → Bool)
    (c : Nat) :
    ∀ (es : List (Nat × Nat)) (maxv maxb : Nat) (hm : Nat → Nat) (pos : Nat),
      (∃ p ∈ es, cid p.1 = c) →
      (scanEdges cid sizes w bound my rnd es maxv maxb hm pos).hash_map c = 0 := by
  intro es
  induction es with
  | nil => intro maxv maxb hm pos h; exact absurd h (by simp)
  | cons p rest ih =>
      intro maxv maxb hm pos h
      obtain ⟨t, ew⟩ := p
      by_cases hrest : ∃ q ∈ rest, cid q.1 = c
      · rw [scanEdges]; split
        · exact ih _ _ _ _ hrest
        · exact ih _ _ _ _ hrest
      · have hc : cid t = c := by
          rcases h with ⟨q, hq, hqc⟩
          rcases List.mem_cons.1 hq with hq | hq
          · rw [hq] at hqc; exact hqc
          · exact absurd ⟨q, hq, hqc⟩ hrest
        have hrest' : ∀ q ∈ rest, cid q.1 ≠ c := by
          intro q hq
          exact fun hqc => hrest ⟨q, hq, hqc⟩
        rw [scanEdges]
        split
        · rw [scanEdges_hash_not_mem cid sizes w bound my rnd c _ _ _ _ _ hrest', ← hc]
          exact Function.update_same _ _ _
        · rw [scanEdges_hash_not_mem cid sizes w bound my rnd c _ _ _ _ _ hrest', ← hc]
          exact Function.update_same _ _ _

lemma processNode_hash_zero (G : Graph) (bound : Nat) (rnd : Nat → Bool) (s : LPState)
    (node : Nat) (h : s.hash_map = fun _ => 0) :
    (processNode G bound rnd s node).hash_map = fun _ => 0 := by
  funext c
  rw [processNode_hash_map]
  by_cases hc : ∃ p ∈ G.adj node, s.cluster_id p.1 = c
  · exact scanEdges_hash_mem _ _ _ _ _ _ _ _ _ _ _ _ hc
  · have hc' : ∀ p ∈ G.adj node, s.cluster_id p.1 ≠ c := by
      intro p hp hpc; exact hc ⟨p, hp, hpc⟩
    rw [scanEdges_hash_not_mem _ _ _ _ _ _ _ _ _ _ _ _ hc',
      accumVotes_not_mem _ _ _ _ hc', h]

lemma foldl_hash_zero (G : Graph) (bound : Nat) (rnd : Nat → Bool) :
    ∀ (steps : List Nat) (s : LPState), s.hash_map = (fun _ => 0) →
      (steps.foldl (processNode G bound rnd) s).hash_map = fun _ => 0 := by
  intro steps
  induction steps with
  | nil => intro s h; exact h
  | cons v rest ih =>
      intro s h
      exact ih _ (processNode_hash_zero G bound rnd s v h)

/-- Claim C7: the vote accumulator array is all zeros at the start of every
node's processing.  After any sequence of per-node commits starting from the
initial state (hence in particular at the start of each node visit inside the
passes), the `hash_map` accumulator is identically zero: the second edge scan
zeroes every entry the first edge scan wrote, so no stale vote from one node's
processing is visible when a later node is processed. -/
theorem hash_map_always_zero (G : Graph) (bound : Nat) (rnd : Nat → Bool) (steps : List Nat) :
    (steps.foldl (processNode G bound rnd) (initState G)).hash_map = fun _ => 0 :=
  foldl_hash_zero G bound rnd steps (initState G) rfl

/-! ### An isolated node never changes cluster (claim C8) -/

lemma processNode_cid_other (G : Graph) (bound : Nat) (rnd : Nat → Bool) (s : LPState)
    (node u : Nat) (h : u ≠ node) :
    (processNode G bound rnd s node).cluster_id u = s.cluster_id u := by
  rw [processNode_cluster_id]
  exact Function.update_noteq h _ _

lemma processNode_cid_isolated (G : Graph) (bound : Nat) (rnd : Nat → Bool) (s : LPState)
    (u : Nat) (h : G.adj u = []) :
    (processNode G bound rnd s u).cluster_id u = s.cluster_id u := by
  rw [processNode_cluster_id, h, scanEdges]
  exact Function.update_same _ _ _

lemma foldl_cid_isolated (G : Graph) (bound : Nat) (rnd : Nat → Bool) (u : Nat)
    (h : G.adj u = []) :
    ∀ (steps : List Nat) (s : LPState),
      (steps.foldl (processNode G bound rnd) s).cluster_id u = s.cluster_id u := by
  intro steps
  induction steps with
  | nil => intro s; rfl
  | cons v rest ih =>
      intro s
      rw [List.foldl_cons, ih]
      by_cases hv : u = v
      · rw [← hv]; exact processNode_cid_isolated G bound rnd s u h
      · exact processNode_cid_other G bound rnd s v u hv

lemma runPasses_cid_isolated (G : Graph) (bound : Nat) (rnd : Nat → Bool) (perm : List Nat)
    (u : Nat) (h : G.adj u = []) :
    ∀ (iters : Nat) (s : LPState),
      (runPasses G bound rnd perm iters s).cluster_id u = s.cluster_id u := by
  intro iters
  induction iters with
  | zero => intro s; rfl
  | succ k ih =>
      intro s
      rw [runPasses, ih]
      exact foldl_cid_isolated G bound rnd u h perm s

/-- Claim C8: a node with no outgoing edges never changes cluster.  For every
number of passes and every permutation, an isolated node's cluster id before
compaction is still its initial singleton id, the node's own index. -/
theorem isolated_node_stable (G : Graph) (bound : Nat) (rnd : Nat → Bool) (perm : List Nat)
    (iters : Nat) (u : Nat) (h : G.adj u = []) :
    (runPasses G bound rnd perm iters (initState G)).cluster_id u = u :=
  runPasses_cid_isolated G bound rnd perm u h iters (initState G)

/-- Witness for `isolated_node_stable`: in the two-node graph where node 0 has
an edge to node 1 but node 1 has no outgoing edges, node 1 still has cluster
id 1 after three passes. -/
theorem isolated_node_stable_witness :
    (Graph.mk 2 (fun _ => 1) (fun v => if v = 0 then [(1, 1)] else [])).adj 1 = [] ∧
    (runPasses (Graph.mk 2 (fun _ => 1) (fun v => if v = 0 then [(1, 1)] else [])) 2
      (fun _ => true) [0, 1] 3
      (initState (Graph.mk 2 (fun _ => 1) (fun v => if v = 0 then [(1, 1)] else [])))).cluster_id
        1 = 1 :=
  ⟨by decide,
    isolated_node_stable (Graph.mk 2 (fun _ => 1) (fun v => if v = 0 then [(1, 1)] else [])) 2
      (fun _ => true) [0, 1] 3 1 (by decide)⟩

/-! ### Capacity is respected on new admissions (claim C1) -/

lemma scanEdges_capacity (cid sizes : Nat → Nat) (w bound my : Nat) (rnd : Nat → Bool) :
    ∀ (es : List (Nat × Nat)) (maxv maxb : Nat) (hm : Nat → Nat) (pos : Nat),
      (maxb = my ∨ sizes maxb + w ≤ bound) →
      ((scanEdges cid sizes w bound my rnd es maxv maxb hm pos).max_block = my ∨
        sizes (scanEdges cid sizes w bound my rnd es maxv maxb hm pos).max_block + w ≤ bound) := by
  intro es
  induction es with
  | nil => intro maxv maxb hm pos h; exact h
  | cons p rest ih =>
      intro maxv maxb hm pos h
      obtain ⟨t, ew⟩ := p
      rw [scanEdges]
      split
      · rename_i hacc
        refine ih _ _ _ _ ?_
        have helig : eligible sizes w bound my (cid t) = true := by
          rw [acceptStep, Bool.and_eq_true] at hacc
          exact hacc.2
        rw [eligible, Bool.or_eq_true, decide_eq_true_eq, decide_eq_true_eq] at helig
        rcases helig with hle | heq
        · exact Or.inr hle
        · exact Or.inl heq
      · exact ih _ _ _ _ h

/-- Claim C1: whenever a node `u` is moved into a cluster different from its
current one, the tracked size of the receiving cluster immediately after the
commit is at most `block_upperbound`; and `u`'s own current cluster is always
`eligible`, whatever its tracked size, so a node may always remain where it
is. -/
theorem capacity_respected (G : Graph) (bound : Nat) (rnd : Nat → Bool) (s : LPState)
    (u : Nat) (h : (processNode G bound rnd s u).cluster_id u ≠ s.cluster_id u) :
    (processNode G bound rnd s u).cluster_sizes ((processNode G bound rnd s u).cluster_id u)
        ≤ bound ∧
      eligible s.cluster_sizes (G.nodeWeight u) bound (s.cluster_id u) (s.cluster_id u)
        = true := by
  simp only [processNode_cluster_id, Function.update_same] at h
  refine ⟨?_, by simp [eligible]⟩
  have hcap := scanEdges_capacity s.cluster_id s.cluster_sizes (G.nodeWeight u) bound
    (s.cluster_id u) rnd (G.adj u) 0 (s.cluster_id u)
    (accumVotes s.cluster_id s.hash_map (G.adj u)) s.rndPos (Or.inl rfl)
  rcases hcap with hmy | hle
  · exact absurd hmy h
  · simp only [processNode_cluster_sizes, processNode_cluster_id, Function.update_same]
    rw [Function.update_noteq h]
    exact hle

/-- Witness for `capacity_respected`: in the two-node path with unit weights
and `block_upperbound = 2`, processing node 0 moves it into node 1's cluster,
whose tracked size 2 does not exceed the bound. -/
theorem capacity_respected_witness :
    (processNode (Graph.mk 2 (fun _ => 1) (fun v => if v = 0 then [(1, 1)] else [])) 2
        (fun _ => true)
        (initState (Graph.mk 2 (fun _ => 1) (fun v => if v = 0 then [(1, 1)] else []))) 0).cluster_id
        0 ≠
      (initState (Graph.mk 2 (fun _ => 1) (fun v => if v = 0 then [(1, 1)] else []))).cluster_id
        0 ∧
    ((processNode (Graph.mk 2 (fun _ => 1) (fun v => if v = 0 then [(1, 1)] else [])) 2
        (fun _ => true)
        (initState (Graph.mk 2 (fun _ => 1) (fun v => if v = 0 then [(1, 1)] else []))) 0).cluster_sizes
        ((processNode (Graph.mk 2 (fun _ => 1) (fun v => if v = 0 then [(1, 1)] else [])) 2
          (fun _ => true)
          (initState (Graph.mk 2 (fun _ => 1) (fun v => if v = 0 then [(1, 1)] else []))) 0).cluster_id
          0) ≤ 2 ∧
      eligible
        (initState (Graph.mk 2 (fun _ => 1) (fun v => if v = 0 then [(1, 1)] else []))).cluster_sizes
        ((Graph.mk 2 (fun _ => 1) (fun v => if v = 0 then [(1, 1)] else [])).nodeWeight 0) 2
        ((initState (Graph.mk 2 (fun _ => 1) (fun v => if v = 0 then [(1, 1)] else []))).cluster_id 0)
        ((initState (Graph.mk 2 (fun _ => 1) (fun v => if v = 0 then [(1, 1)] else []))).cluster_id 0)
        = true) :=
  ⟨by decide,
    capacity_respected (Graph.mk 2 (fun _ => 1) (fun v => if v = 0 then [(1, 1)] else [])) 2
      (fun _ => true)
      (initState (Graph.mk 2 (fun _ => 1) (fun v => if v = 0 then [(1, 1)] else []))) 0
      (by decide)⟩

/-! ### Basic facts about the remapping loop -/

lemma remapLoop_untouched :
    ∀ (l : List Nat) (cid : Nat → Nat) (table : Nat → Option Nat) (cnt v : Nat), v ∉ l →
      (remapLoop l cid table cnt).1 v = cid v := by
  intro l
  induction l with
  | nil => intro cid table cnt v _; rfl
  | cons node rest ih =>
      intro cid table cnt v hv
      have hvn : v ≠ node := fun h => hv (h ▸ List.mem_cons_self _ _)
      have hvr : v ∉ rest := fun h => hv (List.mem_cons_of_mem _ h)
      rw [remapLoop]
      split
      · rw [ih _ _ _ _ hvr]; exact Function.update_noteq hvn _ _
      · rw [ih _ _ _ _ hvr]; exact Function.update_noteq hvn _ _

lemma remapLoop_cnt_le :
    ∀ (l : List Nat) (cid : Nat → Nat) (table : Nat → Option Nat) (cnt : Nat),
      (remapLoop l cid table cnt).2 ≤ cnt + l.length := by
  intro l
  induction l with
  | nil => intro cid table cnt; exact Nat.le_refl _
  | cons node rest ih =>
      intro cid table cnt
      rw [remapLoop]
      split
      · exact le_trans (ih _ _ _) (by simp only [List.length_cons]; omega)
      · exact le_trans (ih _ _ _) (by simp only [List.length_cons]; omega)

lemma remapLoop_id :
    ∀ (k a : Nat) (cid : Nat → Nat) (table : Nat → Option Nat),
      (∀ i, i < k → cid (a + i) = a + i) → (∀ v, a ≤ v → table v = none) →
      (∀ i, i < k → (remapLoop (List.range' a k) cid table a).1 (a + i) = a + i) ∧
        (remapLoop (List.range' a k) cid table a).2 = a + k := by
  intro k
  induction k with
  | zero => intro a cid table _ _; exact ⟨fun i hi => absurd hi (Nat.not_lt_zero i), rfl⟩
  | succ k ih =>
      intro a cid table hcid htab
      have hcida : cid a = a := by simpa using hcid 0 (Nat.succ_pos k)
      have htaba : table a = none := htab a (Nat.le_refl a)
      simp only [List.range'_succ, remapLoop, hcida, htaba]
      have hrec := ih (a + 1) (Function.update cid a a) (Function.update table a (some a))
        (fun i hi => by
          rw [Function.update_noteq (by omega)]
          have := hcid (i + 1) (by omega)
          rw [show a + (i + 1) = a + 1 + i by omega] at this
          exact this)
        (fun v hv => by
          rw [Function.update_noteq (by omega)]
          exact htab v (by omega))
      refine ⟨?_, by rw [hrec.2]; omega⟩
      intro i hi
      match i with
      | 0 =>
          have hmem : a ∉ List.range' (a + 1) k := by
            rw [List.mem_range'_1]; omega
          have hun := remapLoop_untouched (List.range' (a + 1) k)
            (Function.update cid a a) (Function.update table a (some a)) (a + 1) a hmem
          exact hun.trans (Function.update_same _ _ _)
      | j + 1 =>
          have := hrec.1 j (by omega)
          rw [show a + 1 + j = a + (j + 1) by omega] at this
          exact this

lemma remapLoop_le :
    ∀ (k a : Nat) (cid : Nat → Nat) (table : Nat → Option Nat) (cnt : Nat),
      cnt ≤ a → (∀ x d, table x = some d → d < cnt) →
      ∀ i, i < k → (remapLoop (List.range' a k) cid table cnt).1 (a + i) ≤ a + i := by
  intro k
  induction k with
  | zero => intro a cid table cnt _ _ i hi; exact absurd hi (Nat.not_lt_zero i)
  | succ k ih =>
      intro a cid table cnt hcnt htab i hi
      have hmem : a ∉ List.range' (a + 1) k := by rw [List.mem_range'_1]; omega
      rw [List.range'_succ, remapLoop]
      cases hcase : table (cid a) with
      | some d =>
          simp only [hcase]
          have hd : d < cnt := htab _ _ hcase
          match i with
          | 0 =>
              have hun := remapLoop_untouched (List.range' (a + 1) k)
                (Function.update cid a d) table cnt a hmem
              exact le_trans (le_of_eq (hun.trans (Function.update_same _ _ _))) (by omega)
          | j + 1 =>
              have := ih (a + 1) (Function.update cid a d) table cnt (by omega) htab j
                (by omega)
              rw [show a + 1 + j = a + (j + 1) by omega] at this
              exact this
      | none =>
          simp only [hcase]
          match i with
          | 0 =>
              have hun := remapLoop_untouched (List.range' (a + 1) k)
                (Function.update cid a cnt) (Function.update table (cid a) (some cnt))
                (cnt + 1) a hmem
              exact le_trans (le_of_eq (hun.trans (Function.update_same _ _ _))) hcnt
          | j + 1 =>
              have := ih (a + 1) (Function.update cid a cnt)
                (Function.update table (cid a) (some cnt)) (cnt + 1) (by omega)
                (fun x d hx => by
                  rcases eq_or_ne x (cid a) with hxx | hxx
                  · rw [hxx, Function.update_same] at hx
                    have hcd := Option.some.inj hx
                    omega
                  · rw [Function.update_noteq hxx] at hx
                    have := htab _ _ hx
                    omega)
                j (by omega)
              rw [show a + 1 + j = a + (j + 1) by omega] at this
              exact this

/-! ### Zero iterations is a no-op (claim C4) -/

/-- Claim C4: with `label_iterations = 0` no relabeling pass runs: the
assignment entering compaction is the singleton assignment, after compaction
every node keeps its own index as dense id, and the reported cluster count is
the number of nodes. -/
theorem zero_iterations_noop (G : Graph) (bound : Nat) (rnd : Nat → Bool) (perm : List Nat) :
    (∀ v, v < G.n → (label_propagation G bound rnd 0 perm).1 v = v) ∧
      (label_propagation G bound rnd 0 perm).2 = G.n ∧
      (runPasses G bound rnd perm 0 (initState G)).cluster_id = fun v => v := by
  have hmain := remapLoop_id G.n 0 (fun v => v) (fun _ => none)
    (fun i _ => by simp) (fun v _ => rfl)
  refine ⟨fun v hv => ?_, ?_, rfl⟩
  · have := hmain.1 v hv
    simpa [label_propagation, remap_cluster_ids, runPasses, initState,
      List.range_eq_range'] using this
  · have := hmain.2
    simpa [label_propagation, remap_cluster_ids, runPasses, initState,
      List.range_eq_range'] using this

/-- Witness for `zero_iterations_noop`: on a concrete two-node graph with zero
iterations, node 1 keeps dense id 1. -/
theorem zero_iterations_noop_witness :
    1 < (Graph.mk 2 (fun _ => 1) (fun v => if v = 0 then [(1, 1)] else [])).n ∧
    (label_propagation (Graph.mk 2 (fun _ => 1) (fun v => if v = 0 then [(1, 1)] else []))
      3 (fun _ => true) 0 [0, 1]).1 1 = 1 :=
  ⟨by decide,
    (zero_iterations_noop (Graph.mk 2 (fun _ => 1) (fun v => if v = 0 then [(1, 1)] else []))
      3 (fun _ => true) [0, 1]).1 1 (by decide)⟩

/-! ### Compacted ids are bounded by the node index (claim C10) -/

/-- Claim C10: after `remap_cluster_ids`, every node's compacted cluster id is
at most the node's own index; in particular node 0 gets id 0 when the graph is
non-empty, and the reported cluster count never exceeds the number of nodes. -/
theorem remap_ids_bounded (n : Nat) (cid0 : Nat → Nat) :
    (∀ v, v < n → (remap_cluster_ids n cid0).1 v ≤ v) ∧
      (0 < n → (remap_cluster_ids n cid0).1 0 = 0) ∧
      (remap_cluster_ids n cid0).2 ≤ n := by
  have hle : ∀ v, v < n → (remap_cluster_ids n cid0).1 v ≤ v := by
    intro v hv
    have := remapLoop_le n 0 cid0 (fun _ => none) 0 (Nat.le_refl 0)
      (fun x d hx => by exact absurd hx (by simp)) v hv
    simpa [remap_cluster_ids, List.range_eq_range'] using this
  refine ⟨hle, fun hn => Nat.le_zero.1 (hle 0 hn), ?_⟩
  have := remapLoop_cnt_le (List.range n) cid0 (fun _ => none) 0
  simpa [remap_cluster_ids] using this

/-- Witness for `remap_ids_bounded`: remapping the concrete array
`[7, 7, 3]` gives node 2 an id at most 2 (indeed 1), node 0 the id 0, and a
cluster count of at most 3 (indeed 2). -/
theorem remap_ids_bounded_witness :
    2 < 3 ∧ (remap_cluster_ids 3 (fun v => if v = 2 then 3 else 7)).1 2 ≤ 2 :=
  ⟨by decide, (remap_ids_bounded 3 (fun v => if v = 2 then 3 else 7)).1 2 (by decide)⟩

/-! ### The graph is only written in `apply_to_graph` mode (claim C9) -/

lemma foldl_update_apply (cid : Nat → Nat) :
    ∀ (l : List Nat) (f : Nat → Nat) (v : Nat),
      (l.foldl (fun g u => Function.update g u (cid u)) f) v =
        if v ∈ l then cid v else f v := by
  intro l
  induction l with
  | nil => intro f v; simp
  | cons u rest ih =>
      intro f v
      rw [List.foldl_cons, ih]
      by_cases hv : v ∈ rest
      · simp [hv]
      · by_cases hvu : v = u
        · subst hvu
          simp [hv, Function.update_same]
        · simp [hv, hvu, Function.update_noteq hvu]

/-- Claim C9: with `apply_to_graph = false`, `remap_cluster_ids` leaves the
graph untouched: the partition labelling and the partition count are exactly
the ones passed in.  With `apply_to_graph = true`, the graph's partition count
is set to the cluster count and every node's partition label is set to its
compacted cluster id. -/
theorem remap_graph_write_only_when_applied (n : Nat) (cid0 : Nat → Nat)
    (gp : GraphPartition) :
    (remap_cluster_ids_graph n cid0 gp false).2.2 = gp ∧
      (remap_cluster_ids_graph n cid0 gp true).2.2.partition_count =
        (remap_cluster_ids_graph n cid0 gp true).2.1 ∧
      ∀ v, v < n →
        (remap_cluster_ids_graph n cid0 gp true).2.2.partitionIndex v =
          (remap_cluster_ids_graph n cid0 gp true).1 v := by
  refine ⟨rfl, rfl, fun v hv => ?_⟩
  show writePartitionIndices n (remap_cluster_ids n cid0).1 gp.partitionIndex v = _
  rw [writePartitionIndices, foldl_update_apply]
  simp only [List.mem_range, hv, if_true]
  rfl

/-- Witness for `remap_graph_write_only_when_applied`: with one node whose
cluster id maps to 0, write-back mode sets node 0's partition label to 0. -/
theorem remap_graph_write_only_when_applied_witness :
    0 < 1 ∧
    (remap_cluster_ids_graph 1 (fun _ => 5) (GraphPartition.mk (fun _ => 9) 4)
        true).2.2.partitionIndex 0 =
      (remap_cluster_ids_graph 1 (fun _ => 5) (GraphPartition.mk (fun _ => 9) 4) true).1 0 :=
  ⟨by decide,
    (remap_graph_write_only_when_applied 1 (fun _ => 5)
      (GraphPartition.mk (fun _ => 9) 4)).2.2 0 (by decide)⟩

/-! ### Characterisation of the remapping loop (claims C5, C6) -/

/-- Master characterisation of `remapLoop` on a duplicate-free node list: there
is a total view `T` of the final `remap` table that extends the incoming table,
is injective, has range exactly `[0, cnt')`, and such that every visited
node's final entry is `T` of its original cluster id, with every dense id
introduced by the loop attained by some visited node. -/
lemma remapLoop_master :
    ∀ (l : List Nat) (cid : Nat → Nat) (table : Nat → Option Nat) (cnt : Nat),
      l.Nodup →
      (∀ a x, table a = some x → x < cnt) →
      (∀ a b x, table a = some x → table b = some x → a = b) →
      ∃ T : Nat → Option Nat,
        (∀ a x, table a = some x → T a = some x) ∧
        (∀ a x, T a = some x → x < (remapLoop l cid table cnt).2) ∧
        (∀ a b x, T a = some x → T b = some x → a = b) ∧
        (∀ a, T a = none → table a = none) ∧
        (∀ v ∈ l, ∃ d, T (cid v) = some d ∧ (remapLoop l cid table cnt).1 v = d) ∧
        (∀ x, cnt ≤ x → x < (remapLoop l cid table cnt).2 →
          ∃ v ∈ l, (remapLoop l cid table cnt).1 v = x) := by
  intro l
  induction l with
  | nil =>
      intro cid table cnt _ hrng hinj
      refine ⟨table, fun a x h => h, hrng, hinj, fun a h => h, by simp, ?_⟩
      intro x hx1 hx2
      exact absurd (lt_of_le_of_lt hx1 hx2) (lt_irrefl cnt)
  | cons node rest ih =>
      intro cid table cnt hnd hrng hinj
      have hnode : node ∉ rest := (List.nodup_cons.1 hnd).1
      have hndr : rest.Nodup := (List.nodup_cons.1 hnd).2
      cases hcase : table (cid node) with
      | some d =>
          obtain ⟨T, h1, h2, h3, h4, h5, h6⟩ :=
            ih (Function.update cid node d) table cnt hndr hrng hinj
          rw [remapLoop]
          simp only [hcase]
          refine ⟨T, h1, h2, h3, h4, ?_, ?_⟩
          · intro v hv
            rcases List.mem_cons.1 hv with hv | hv
            · subst hv
              refine ⟨d, h1 _ _ hcase, ?_⟩
              rw [remapLoop_untouched rest (Function.update cid v d) table cnt v hnode]
              exact Function.update_same _ _ _
            · obtain ⟨d', hT, hval⟩ := h5 v hv
              have hvn : v ≠ node := fun h => hnode (h ▸ hv)
              rw [Function.update_noteq hvn] at hT
              exact ⟨d', hT, hval⟩
          · intro x hx1 hx2
            obtain ⟨v, hv, hval⟩ := h6 x hx1 hx2
            exact ⟨v, List.mem_cons_of_mem _ hv, hval⟩
      | none =>
          have hrng' : ∀ a x, Function.update table (cid node) (some cnt) a = some x →
              x < cnt + 1 := by
            intro a x ha
            rcases eq_or_ne a (cid node) with haa | haa
            · rw [haa, Function.update_same] at ha
              have := Option.some.inj ha
              omega
            · rw [Function.update_noteq haa] at ha
              have := hrng _ _ ha
              omega
          have hinj' : ∀ a b x, Function.update table (cid node) (some cnt) a = some x →
              Function.update table (cid node) (some cnt) b = some x → a = b := by
            intro a b x ha hb
            rcases eq_or_ne a (cid node) with haa | haa
            · rcases eq_or_ne b (cid node) with hbb | hbb
              · rw [haa, hbb]
              · rw [haa, Function.update_same] at ha
                rw [Function.update_noteq hbb] at hb
                have hx : x = cnt := (Option.some.inj ha).symm
                have := hrng _ _ hb
                omega
            · rw [Function.update_noteq haa] at ha
              rcases eq_or_ne b (cid node) with hbb | hbb
              · rw [hbb, Function.update_same] at hb
                have hx : x = cnt := (Option.some.inj hb).symm
                have := hrng _ _ ha
                omega
              · rw [Function.update_noteq hbb] at hb
                exact hinj _ _ _ ha hb
          obtain ⟨T, h1, h2, h3, h4, h5, h6⟩ :=
            ih (Function.update cid node cnt) (Function.update table (cid node) (some cnt))
              (cnt + 1) hndr hrng' hinj'
          rw [remapLoop]
          simp only [hcase]
          refine ⟨T, ?_, h2, h3, ?_, ?_, ?_⟩
          · intro a x ha
            have haa : a ≠ cid node := by
              intro h
              rw [h, hcase] at ha
              exact Option.noConfusion ha
            exact h1 a x (by rw [Function.update_noteq haa]; exact ha)
          · intro a ha
            have := h4 a ha
            rcases eq_or_ne a (cid node) with haa | haa
            · rw [haa, Function.update_same] at this
              exact Option.noConfusion this
            · rw [Function.update_noteq haa] at this
              exact this
          · intro v hv
            rcases List.mem_cons.1 hv with hv | hv
            · subst hv
              refine ⟨cnt, h1 _ _ (Function.update_same _ _ _), ?_⟩
              rw [remapLoop_untouched rest (Function.update cid v cnt)
                (Function.update table (cid v) (some cnt)) (cnt + 1) v hnode]
              exact Function.update_same _ _ _
            · obtain ⟨d', hT, hval⟩ := h5 v hv
              have hvn : v ≠ node := fun h => hnode (h ▸ hv)
              rw [Function.update_noteq hvn] at hT
              exact ⟨d', hT, hval⟩
          · intro x hx1 hx2
            rcases eq_or_lt_of_le hx1 with hx | hx
            · refine ⟨node, List.mem_cons_self _ _, ?_⟩
              rw [remapLoop_untouched rest (Function.update cid node cnt)
                (Function.update table (cid node) (some cnt)) (cnt + 1) node hnode]
              rw [Function.update_same, hx]
            · obtain ⟨v, hv, hval⟩ := h6 x hx hx2
              exact ⟨v, List.mem_cons_of_mem _ hv, hval⟩

/-- Claim C5: after remapping, the set of cluster ids present on the nodes is
exactly `{0, ..., k-1}` where `k` is the reported number of coarse vertices,
and `k` equals the number of distinct cluster ids present before remapping. -/
theorem remap_density (n : Nat) (cid0 : Nat → Nat) (_hn : 0 < n) :
    (Finset.range n).image (remap_cluster_ids n cid0).1 =
        Finset.range (remap_cluster_ids n cid0).2 ∧
      (remap_cluster_ids n cid0).2 = ((Finset.range n).image cid0).card := by
  obtain ⟨T, h1, h2, h3, h4, h5, h6⟩ :=
    remapLoop_master (List.range n) cid0 (fun _ => none) 0 (List.nodup_range n)
      (fun a x h => Option.noConfusion h) (fun a b x ha _ => Option.noConfusion ha)
  rw [remap_cluster_ids]
  constructor
  · apply Finset.ext
    intro x
    constructor
    · intro hx
      obtain ⟨v, hv, hval⟩ := Finset.mem_image.1 hx
      obtain ⟨d, hT, hdval⟩ := h5 v (List.mem_range.2 (Finset.mem_range.1 hv))
      rw [← hval, hdval]
      exact Finset.mem_range.2 (h2 _ _ hT)
    · intro hx
      obtain ⟨v, hv, hval⟩ := h6 x (Nat.zero_le x) (Finset.mem_range.1 hx)
      exact Finset.mem_image.2 ⟨v, Finset.mem_range.2 (List.mem_range.1 hv), hval⟩
  · rw [← Finset.card_range (remapLoop (List.range n) cid0 (fun _ => none) 0).2]
    apply (Finset.card_bij (fun a _ => (T a).getD 0) ?_ ?_ ?_).symm
    · intro a ha
      obtain ⟨v, hv, hval⟩ := Finset.mem_image.1 ha
      obtain ⟨d, hT, hdval⟩ := h5 v (List.mem_range.2 (Finset.mem_range.1 hv))
      rw [hval] at hT
      show (T a).getD 0 ∈ Finset.range _
      rw [hT]
      exact Finset.mem_range.2 (h2 _ _ hT)
    · intro a ha b hb hab
      obtain ⟨va, hva, hvala⟩ := Finset.mem_image.1 ha
      obtain ⟨vb, hvb, hvalb⟩ := Finset.mem_image.1 hb
      obtain ⟨da, hTa, _⟩ := h5 va (List.mem_range.2 (Finset.mem_range.1 hva))
      obtain ⟨db, hTb, _⟩ := h5 vb (List.mem_range.2 (Finset.mem_range.1 hvb))
      rw [hvala] at hTa
      rw [hvalb] at hTb
      have hab' : (T a).getD 0 = (T b).getD 0 := hab
      rw [hTa, hTb] at hab'
      simp only [Option.getD_some] at hab'
      exact h3 a b da hTa (by rw [hTb, hab'])
    · intro x hx
      obtain ⟨v, hv, hval⟩ := h6 x (Nat.zero_le x) (Finset.mem_range.1 hx)
      obtain ⟨d, hT, hdval⟩ := h5 v hv
      refine ⟨cid0 v, Finset.mem_image.2 ⟨v, Finset.mem_range.2 (List.mem_range.1 hv), rfl⟩, ?_⟩
      show (T (cid0 v)).getD 0 = x
      rw [hT]
      simp only [Option.getD_some]
      exact hdval.symm.trans hval

/-- Witness for `remap_density`: remapping `[5, 5, 2]` over three nodes gives
ids filling `{0, 1}` exactly, with `k = 2`, the number of distinct ids. -/
theorem remap_density_witness :
    0 < 3 ∧
    ((Finset.range 3).image (remap_cluster_ids 3 (fun v => if v = 2 then 2 else 5)).1 =
        Finset.range (remap_cluster_ids 3 (fun v => if v = 2 then 2 else 5)).2 ∧
      (remap_cluster_ids 3 (fun v => if v = 2 then 2 else 5)).2 =
        ((Finset.range 3).image (fun v => if v = 2 then 2 else 5)).card) :=
  ⟨by decide, remap_density 3 (fun v => if v = 2 then 2 else 5) (by decide)⟩

/-- Claim C6: remapping preserves the grouping: two nodes share a cluster id
after `remap_cluster_ids` exactly when they shared one before. -/
theorem remap_grouping (n : Nat) (cid0 : Nat → Nat) (u v : Nat) (hu : u < n) (hv : v < n) :
    ((remap_cluster_ids n cid0).1 u = (remap_cluster_ids n cid0).1 v ↔ cid0 u = cid0 v) := by
  obtain ⟨T, h1, h2, h3, h4, h5, h6⟩ :=
    remapLoop_master (List.range n) cid0 (fun _ => none) 0 (List.nodup_range n)
      (fun a x h => Option.noConfusion h) (fun a b x ha _ => Option.noConfusion ha)
  obtain ⟨du, hTu, hvalu⟩ := h5 u (List.mem_range.2 hu)
  obtain ⟨dv, hTv, hvalv⟩ := h5 v (List.mem_range.2 hv)
  rw [remap_cluster_ids, hvalu, hvalv]
  constructor
  · intro h
    exact h3 _ _ du hTu (by rw [hTv, h])
  · intro h
    rw [h] at hTu
    rw [hTu] at hTv
    exact Option.some.inj hTv

/-- Witness for `remap_grouping`: on the array `[5, 5, 2]`, nodes 0 and 1
share a compacted id exactly because they shared the original id 5. -/
theorem remap_grouping_witness :
    (0 < 3 ∧ 1 < 3) ∧
    ((remap_cluster_ids 3 (fun v => if v = 2 then 2 else 5)).1 0 =
        (remap_cluster_ids 3 (fun v => if v = 2 then 2 else 5)).1 1 ↔
      (if (0 : Nat) = 2 then (2 : Nat) else 5) = (if (1 : Nat) = 2 then (2 : Nat) else 5)) :=
  ⟨⟨by decide, by decide⟩,
    remap_grouping 3 (fun v => if v = 2 then 2 else 5) 0 1 (by decide) (by decide)⟩

/-! ### Weight conservation (claim C2) -/

lemma initState_sizesConsistent (G : Graph) : sizesConsistent G (initState G) := by
  constructor
  · intro v hv
    exact hv
  · intro c
    show (if c < G.n then G.nodeWeight c else 0) = clusterWeight G (fun v => v) c
    rw [clusterWeight, Finset.filter_eq']
    by_cases hc : c < G.n
    · simp [Finset.mem_range, hc]
    · simp [Finset.mem_range, hc]

lemma scanEdges_block_mem (cid sizes : Nat → Nat) (w bound my : Nat) (rnd : Nat → Bool) :
    ∀ (es : List (Nat × Nat)) (maxv maxb : Nat) (hm : Nat → Nat) (pos : Nat),
      (scanEdges cid sizes w bound my rnd es maxv maxb hm pos).max_block = maxb ∨
        ∃ p ∈ es, cid p.1 =
          (scanEdges cid sizes w bound my rnd es maxv maxb hm pos).max_block := by
  intro es
  induction es with
  | nil => intro maxv maxb hm pos; exact Or.inl rfl
  | cons p rest ih =>
      intro maxv maxb hm pos
      obtain ⟨t, ew⟩ := p
      rw [scanEdges]
      split
      · rcases ih (hm (cid t)) (cid t) (Function.update hm (cid t) 0)
          (nextPos (hm (cid t)) maxv pos) with h' | h'
        · exact Or.inr ⟨(t, ew), List.mem_cons_self _ _, by rw [h']⟩
        · obtain ⟨q, hq, hqc⟩ := h'
          exact Or.inr ⟨q, List.mem_cons_of_mem _ hq, hqc⟩
      · rcases ih maxv maxb (Function.update hm (cid t) 0)
          (nextPos (hm (cid t)) maxv pos) with h' | h'
        · exact Or.inl h'
        · obtain ⟨q, hq, hqc⟩ := h'
          exact Or.inr ⟨q, List.mem_cons_of_mem _ hq, hqc⟩

lemma processNode_sizesConsistent (G : Graph) (bound : Nat) (rnd : Nat → Bool) (s : LPState)
    (node : Nat) (hwf : G.wf) (hn : node < G.n) (h : sizesConsistent G s) :
    sizesConsistent G (processNode G bound rnd s node) := by
  obtain ⟨hcid, hsizes⟩ := h
  have hmb : (scanEdges s.cluster_id s.cluster_sizes (G.nodeWeight node) bound
      (s.cluster_id node) rnd (G.adj node) 0 (s.cluster_id node)
      (accumVotes s.cluster_id s.hash_map (G.adj node)) s.rndPos).max_block < G.n := by
    rcases scanEdges_block_mem s.cluster_id s.cluster_sizes (G.nodeWeight node) bound
      (s.cluster_id node) rnd (G.adj node) 0 (s.cluster_id node)
      (accumVotes s.cluster_id s.hash_map (G.adj node)) s.rndPos with hh | hh
    · rw [hh]
      exact hcid node hn
    · obtain ⟨p, hp, hpc⟩ := hh
      rw [← hpc]
      exact hcid p.1 (hwf node hn p hp)
  have hnode_in_my : node ∈ (Finset.range G.n).filter
      (fun v => s.cluster_id v = s.cluster_id node) :=
    Finset.mem_filter.2 ⟨Finset.mem_range.2 hn, rfl⟩
  have hw_le : G.nodeWeight node ≤ s.cluster_sizes (s.cluster_id node) := by
    rw [hsizes (s.cluster_id node)]
    exact Finset.single_le_sum (fun i _ => Nat.zero_le _) hnode_in_my
  constructor
  · intro v hv
    rw [processNode_cluster_id]
    by_cases hvn : v = node
    · rw [hvn, Function.update_same]
      exact hmb
    · rw [Function.update_noteq hvn]
      exact hcid v hv
  · intro c
    simp only [processNode_cluster_sizes, processNode_cluster_id]
    revert hmb
    generalize (scanEdges s.cluster_id s.cluster_sizes (G.nodeWeight node) bound
      (s.cluster_id node) rnd (G.adj node) 0 (s.cluster_id node)
      (accumVotes s.cluster_id s.hash_map (G.adj node)) s.rndPos).max_block = mb
    intro hmb
    have hupd : ∀ v, v ≠ node →
        Function.update s.cluster_id node mb v = s.cluster_id v :=
      fun v hv => Function.update_noteq hv _ _
    by_cases hmb_my : mb = s.cluster_id node
    · subst hmb_my
      rw [Function.update_eq_self]
      by_cases hc : c = s.cluster_id node
      · subst hc
        rw [Function.update_same, Function.update_same, Nat.sub_add_cancel hw_le, hsizes]
      · rw [Function.update_noteq hc, Function.update_noteq hc, hsizes]
    · by_cases hc_mb : c = mb
      · subst hc_mb
        rw [Function.update_same, Function.update_noteq hmb_my]
        have hfilter : (Finset.range G.n).filter
            (fun v => Function.update s.cluster_id node c v = c) =
            insert node ((Finset.range G.n).filter (fun v => s.cluster_id v = c)) := by
          apply Finset.ext
          intro v
          simp only [Finset.mem_insert, Finset.mem_filter, Finset.mem_range]
          constructor
          · rintro ⟨hvn, hcv⟩
            by_cases hveq : v = node
            · exact Or.inl hveq
            · exact Or.inr ⟨hvn, by rw [← hupd v hveq]; exact hcv⟩
          · rintro (hveq | ⟨hvn, hcv⟩)
            · subst hveq
              exact ⟨hn, Function.update_same _ _ _⟩
            · have hveq : v ≠ node := by
                intro hh
                rw [hh] at hcv
                exact hmb_my hcv.symm
              exact ⟨hvn, by rw [hupd v hveq]; exact hcv⟩
        have hnotin : node ∉ (Finset.range G.n).filter (fun v => s.cluster_id v = c) := by
          simp only [Finset.mem_filter, Finset.mem_range]
          rintro ⟨-, hcv⟩
          exact hmb_my hcv.symm
        rw [clusterWeight, hfilter, Finset.sum_insert hnotin, hsizes, clusterWeight]
        omega
      · by_cases hc_my : c = s.cluster_id node
        · subst hc_my
          rw [Function.update_noteq hc_mb, Function.update_same]
          have hfilter : (Finset.range G.n).filter
              (fun v => Function.update s.cluster_id node mb v = s.cluster_id node) =
              ((Finset.range G.n).filter
                (fun v => s.cluster_id v = s.cluster_id node)).erase node := by
            apply Finset.ext
            intro v
            simp only [Finset.mem_erase, Finset.mem_filter, Finset.mem_range]
            constructor
            · rintro ⟨hvn, hcv⟩
              have hveq : v ≠ node := by
                intro hh
                rw [hh, Function.update_same] at hcv
                exact hmb_my hcv
              exact ⟨hveq, hvn, by rw [← hupd v hveq]; exact hcv⟩
            · rintro ⟨hveq, hvn, hcv⟩
              exact ⟨hvn, by rw [hupd v hveq]; exact hcv⟩
          rw [clusterWeight, hfilter]
          have hsum := Finset.sum_erase_add
            ((Finset.range G.n).filter (fun v => s.cluster_id v = s.cluster_id node))
            G.nodeWeight hnode_in_my
          rw [hsizes, clusterWeight]
          omega
        · rw [Function.update_noteq hc_mb, Function.update_noteq hc_my, hsizes]
          have hfilter : (Finset.range G.n).filter
              (fun v => Function.update s.cluster_id node mb v = c) =
              (Finset.range G.n).filter (fun v => s.cluster_id v = c) := by
            apply Finset.ext
            intro v
            simp only [Finset.mem_filter, Finset.mem_range]
            constructor
            · rintro ⟨hvn, hcv⟩
              have hveq : v ≠ node := by
                intro hh
                rw [hh, Function.update_same] at hcv
                exact hc_mb hcv.symm
              exact ⟨hvn, by rw [← hupd v hveq]; exact hcv⟩
            · rintro ⟨hvn, hcv⟩
              have hveq : v ≠ node := by
                intro hh
                rw [hh] at hcv
                exact hc_my hcv.symm
              exact ⟨hvn, by rw [hupd v hveq]; exact hcv⟩
          simp only [clusterWeight]
          rw [hfilter]

lemma sizesConsistent_sum (G : Graph) (s : LPState) (h : sizesConsistent G s) :
    sizesSum G s = totalWeight G := by
  rw [sizesSum, totalWeight]
  have h1 : ∀ c ∈ Finset.range G.n, s.cluster_sizes c = clusterWeight G s.cluster_id c :=
    fun c _ => h.2 c
  rw [Finset.sum_congr rfl h1]
  simp only [clusterWeight]
  exact Finset.sum_fiberwise_of_maps_to
    (fun v hv => Finset.mem_range.2 (h.1 v (Finset.mem_range.1 hv))) _

lemma foldl_sizesConsistent (G : Graph) (bound : Nat) (rnd : Nat → Bool) (hwf : G.wf) :
    ∀ (steps : List Nat) (s : LPState), (∀ v ∈ steps, v < G.n) → sizesConsistent G s →
      sizesConsistent G (steps.foldl (processNode G bound rnd) s) := by
  intro steps
  induction steps with
  | nil => intro s _ h; exact h
  | cons v rest ih =>
      intro s hsteps h
      exact ih _ (fun u hu => hsteps u (List.mem_cons_of_mem _ hu))
        (processNode_sizesConsistent G bound rnd s v hwf
          (hsteps v (List.mem_cons_self _ _)) h)

/-- Claim C2: weight is conserved at every point of label propagation.  After
the initialisation and after any sequence of per-node commits (hence before
and after every single commit of every pass), the sum of the tracked cluster
sizes equals the sum of all node weights. -/
theorem weight_conserved (G : Graph) (bound : Nat) (rnd : Nat → Bool) (steps : List Nat)
    (hwf : G.wf) (hsteps : validSteps G steps) :
    sizesSum G (steps.foldl (processNode G bound rnd) (initState G)) = totalWeight G :=
  sizesConsistent_sum G _
    (foldl_sizesConsistent G bound rnd hwf steps (initState G) hsteps
      (initState_sizesConsistent G))

/-- Witness for `weight_conserved`: on the two-node path with unit weights,
after committing node 0 and then node 1, the tracked sizes still sum to the
total weight 2. -/
theorem weight_conserved_witness :
    ((Graph.mk 2 (fun _ => 1) (fun v => if v = 0 then [(1, 1)] else [(0, 1)])).wf ∧
      validSteps (Graph.mk 2 (fun _ => 1) (fun v => if v = 0 then [(1, 1)] else [(0, 1)]))
        [0, 1]) ∧
    sizesSum (Graph.mk 2 (fun _ => 1) (fun v => if v = 0 then [(1, 1)] else [(0, 1)]))
        (([0, 1] : List Nat).foldl
          (processNode (Graph.mk 2 (fun _ => 1) (fun v => if v = 0 then [(1, 1)] else [(0, 1)]))
            2 (fun _ => true))
          (initState (Graph.mk 2 (fun _ => 1) (fun v => if v = 0 then [(1, 1)] else [(0, 1)])))) =
      totalWeight (Graph.mk 2 (fun _ => 1) (fun v => if v = 0 then [(1, 1)] else [(0, 1)])) :=
  ⟨⟨by decide, by decide⟩,
    weight_conserved (Graph.mk 2 (fun _ => 1) (fun v => if v = 0 then [(1, 1)] else [(0, 1)]))
      2 (fun _ => true) [0, 1] (by decide) (by decide)⟩

/-! ### When does a node keep its cluster (claim C3) -/

lemma scanEdges_no_accept (cid sizes : Nat → Nat) (w bound my : Nat) (rnd : Nat → Bool)
    (A : Nat → Nat) (hrand : ∀ i, rnd i = false) :
    ∀ (es : List (Nat × Nat)) (maxv maxb : Nat) (hm : Nat → Nat) (pos : Nat),
      maxb = my →
      (∀ p ∈ es, cid p.1 = my ∨ A (cid p.1) = 0 ∨ ¬(sizes (cid p.1) + w ≤ bound)) →
      (∀ c, hm c = A c ∨ hm c = 0) →
      (scanEdges cid sizes w bound my rnd es maxv maxb hm pos).max_block = my := by
  intro es
  induction es with
  | nil => intro maxv maxb hm pos hb _ _; exact hb
  | cons p rest ih =>
      intro maxv maxb hm pos hb hvotes hhm
      obtain ⟨t, ew⟩ := p
      have hrest : ∀ q ∈ rest,
          cid q.1 = my ∨ A (cid q.1) = 0 ∨ ¬(sizes (cid q.1) + w ≤ bound) :=
        fun q hq => hvotes q (List.mem_cons_of_mem _ hq)
      have hhm' : ∀ c, Function.update hm (cid t) 0 c = A c ∨
          Function.update hm (cid t) 0 c = 0 := by
        intro c
        by_cases hc : c = cid t
        · rw [hc, Function.update_same]
          exact Or.inr rfl
        · rw [Function.update_noteq hc]
          exact hhm c
      rw [scanEdges]
      split
      · rename_i hacc
        by_cases hmy : cid t = my
        · exact ih _ _ _ _ hmy hrest hhm'
        · exfalso
          rcases hvotes (t, ew) (List.mem_cons_self _ _) with hmy' | hA0 | hinelig
          · exact hmy hmy'
          · have hcv : hm (cid t) = 0 := by
              rcases hhm (cid t) with h | h
              · rw [h, hA0]
              · exact h
            rw [acceptStep, hcv] at hacc
            rw [if_neg (Nat.not_lt_zero maxv)] at hacc
            by_cases h2 : (0 : Nat) = maxv
            · rw [if_pos h2, hrand pos, Bool.false_and] at hacc
              exact Bool.noConfusion hacc
            · rw [if_neg h2, Bool.false_and] at hacc
              exact Bool.noConfusion hacc
          · have helig : eligible sizes w bound my (cid t) = false := by
              simp [eligible, hinelig, hmy]
            rw [acceptStep, helig, Bool.and_false] at hacc
            exact Bool.noConfusion hacc
      · exact ih _ _ _ _ hb hrest hhm'

/-- Claim C3, amended: when the vote accumulator is clean and the coin flip
declines every tie, a node whose neighbourhood offers no eligible accumulated
vote strictly exceeding the initial best value of 0 keeps its current
cluster.  (Without the tie-flip proviso the claim is false: a zero-weight
edge produces a tying vote of 0 that a lucky coin can accept, see
`keep_cluster_counterexample`.) -/
theorem no_eligible_vote_keeps_cluster (G : Graph) (bound : Nat) (rnd : Nat → Bool)
    (s : LPState) (u : Nat) (hrand : rnd = fun _ => false)
    (hhash : s.hash_map = fun _ => 0)
    (hvotes : noEligiblePositiveVote G bound s u) :
    (processNode G bound rnd s u).cluster_id u = s.cluster_id u := by
  rw [processNode_cluster_id, Function.update_same]
  apply scanEdges_no_accept s.cluster_id s.cluster_sizes (G.nodeWeight u) bound
    (s.cluster_id u) rnd (accumVotes s.cluster_id s.hash_map (G.adj u))
    (fun i => by rw [hrand]) (G.adj u) 0 (s.cluster_id u)
    (accumVotes s.cluster_id s.hash_map (G.adj u)) s.rndPos rfl
  · intro p hp
    rcases hvotes p hp with h | h | h
    · exact Or.inl h
    · refine Or.inr (Or.inl ?_)
      rw [hhash]
      exact h
    · exact Or.inr (Or.inr h)
  · intro c
    exact Or.inl rfl

/-- Counterexample to claim C3 as stated: in the two-node graph whose single
edge `0 → 1` has weight 0 (weights are only required to be non-negative),
every accumulated vote is 0 — so no neighbouring cluster yields an eligible
vote strictly exceeding the initial best value of 0 — yet with a coin that
accepts the tie, node 0 moves from its cluster 0 into cluster 1. -/
theorem keep_cluster_counterexample :
    accumVotes
        (initState (Graph.mk 2 (fun _ => 1) (fun v => if v = 0 then [(1, 0)] else []))).cluster_id
        (initState (Graph.mk 2 (fun _ => 1) (fun v => if v = 0 then [(1, 0)] else []))).hash_map
        ((Graph.mk 2 (fun _ => 1) (fun v => if v = 0 then [(1, 0)] else [])).adj 0) =
      (fun _ => 0) ∧
    (initState (Graph.mk 2 (fun _ => 1) (fun v => if v = 0 then [(1, 0)] else []))).cluster_id 0
      = 0 ∧
    (processNode (Graph.mk 2 (fun _ => 1) (fun v => if v = 0 then [(1, 0)] else [])) 10
        (fun _ => true)
        (initState (Graph.mk 2 (fun _ => 1) (fun v => if v = 0 then [(1, 0)] else []))) 0).cluster_id
        0 = 1 :=
  ⟨Function.update_eq_self 1 (fun _ => 0), rfl, by decide⟩

/-- Witness for `no_eligible_vote_keeps_cluster`: node 0's only neighbour
lives in cluster 1, which is over capacity for bound 1, so with a declining
coin node 0 stays in cluster 0. -/
theorem no_eligible_vote_keeps_cluster_witness :
    ((fun _ => false) = (fun _ : Nat => false) ∧
      (initState (Graph.mk 2 (fun _ => 1) (fun v => if v = 0 then [(1, 1)] else []))).hash_map
        = (fun _ => 0) ∧
      noEligiblePositiveVote (Graph.mk 2 (fun _ => 1) (fun v => if v = 0 then [(1, 1)] else []))
        1 (initState (Graph.mk 2 (fun _ => 1) (fun v => if v = 0 then [(1, 1)] else []))) 0) ∧
    (processNode (Graph.mk 2 (fun _ => 1) (fun v => if v = 0 then [(1, 1)] else [])) 1
        (fun _ => false)
        (initState (Graph.mk 2 (fun _ => 1) (fun v => if v = 0 then [(1, 1)] else []))) 0).cluster_id
        0 =
      (initState (Graph.mk 2 (fun _ => 1) (fun v => if v = 0 then [(1, 1)] else []))).cluster_id 0 :=
  ⟨⟨rfl, rfl, by decide⟩,
    no_eligible_vote_keeps_cluster
      (Graph.mk 2 (fun _ => 1) (fun v => if v = 0 then [(1, 1)] else [])) 1 (fun _ => false)
      (initState (Graph.mk 2 (fun _ => 1) (fun v => if v = 0 then [(1, 1)] else []))) 0
      rfl rfl (by decide)⟩
